import Mathlib

set_option maxHeartbeats 2000000
set_option maxRecDepth 4000

/-!
Shallow embedding of the tic-tac-toe engine in src/game.rs: the board data
model, placement, terminal-state detection, the exhaustive minimax solver and
the coordinate parser, together with proofs of the specified properties.

The Rust minimax recurses on a copy of the board with one more cell filled, so
its recursion depth is bounded by the number of empty cells.  The embedding
makes that bound an explicit fuel argument (structural recursion), and proves
that any fuel at least the number of empty cells yields the same result, which
is the termination argument of the source function.
-/
/-- Players of tic-tac-toe, mirroring the Rust enum Player. -/
inductive Player where
  | X : Player
  | O : Player
deriving DecidableEq, Repr

/-- Mirrors Player::other. -/
def Player.other : Player → Player
  | Player.X => Player.O
  | Player.O => Player.X

/-- Mirrors struct Board: nine cells, each an optional Player; the embedding
uses a list, with length 9 as the well-formedness condition. -/
structure Board where
  cells : List (Option Player)
deriving DecidableEq, Repr

/-- Mirrors Board::new. -/
def Board.new : Board := ⟨List.replicate 9 none⟩

/-- Mirrors Board::idx. -/
def Board.idx (row col : Nat) : Nat := row * 3 + col

/-- Mirrors Board::place: the returned pair is the bool result together with
the board after the call (Rust mutates in place). -/
def Board.place (b : Board) (row col : Nat) (p : Player) : Bool × Board :=
  if row ≥ 3 ∨ col ≥ 3 then (false, b)
  else
    if b.cells.getD (Board.idx row col) none = none then
      (true, ⟨b.cells.set (Board.idx row col) (some p)⟩)
    else (false, b)

/-- Mirrors Board::available_moves: indices of the empty cells, ascending. -/
def Board.availableMoves (b : Board) : List Nat :=
  (List.range b.cells.length).filter (fun i => (b.cells.getD i none).isNone)

/-- Mirrors Board::is_full. -/
def Board.isFull (b : Board) : Bool := b.cells.all (fun c => c.isSome)

/-- The eight winning lines of Board::winner, in source order. -/
def winningLines : List (Nat × Nat × Nat) :=
  [(0, 1, 2), (3, 4, 5), (6, 7, 8), (0, 3, 6), (1, 4, 7), (2, 5, 8), (0, 4, 8), (2, 4, 6)]

/-- One iteration of the loop in Board::winner: the owner of a fully owned
line, if any.  The source's if-let on the triple of cells is rendered as a
bind chain: all three cells must be occupied, by the same player. -/
def lineOwner (b : Board) (t : Nat × Nat × Nat) : Option Player :=
  (b.cells.getD t.1 none).bind (fun p1 =>
    (b.cells.getD t.2.1 none).bind (fun p2 =>
      (b.cells.getD t.2.2 none).bind (fun p3 =>
        if p1 = p2 ∧ p2 = p3 then some p1 else none)))

/-- The loop of Board::winner: the first fully owned line decides. -/
def firstOwner (b : Board) : List (Nat × Nat × Nat) → Option Player
  | [] => none
  | t :: rest =>
    match lineOwner b t with
    | some p => some p
    | none => firstOwner b rest

/-- Mirrors Board::winner. -/
def Board.winner (b : Board) : Option Player := firstOwner b winningLines

/-- Mirrors the hypothetical move inside minimax: next.cells[mv] = Some(current). -/
def Board.play (b : Board) (mv : Nat) (p : Player) : Board :=
  ⟨b.cells.set mv (some p)⟩

/-- Number of empty cells of a cell list. -/
def countEmpty (l : List (Option Player)) : Nat :=
  (l.filter (fun c => c.isNone)).length

/-- The i32::MIN sentinel used to initialize best_score for the maximizer. -/
def int32Min : Int := -2147483648

/-- The i32::MAX sentinel used to initialize best_score for the minimizer. -/
def int32Max : Int := 2147483647

/-- The maximizing branch of the loop in minimax: a later child replaces the
kept one only on a strictly greater score. -/
def selectMax : List (Nat × Int) → Int → Option Nat → Int × Option Nat
  | [], best, bm => (best, bm)
  | (mv, s) :: rest, best, bm =>
    if s > best then selectMax rest s (some mv) else selectMax rest best bm

/-- The minimizing branch of the loop in minimax: a later child replaces the
kept one only on a strictly smaller score. -/
def selectMin : List (Nat × Int) → Int → Option Nat → Int × Option Nat
  | [], best, bm => (best, bm)
  | (mv, s) :: rest, best, bm =>
    if s < best then selectMin rest s (some mv) else selectMin rest best bm

/-- Mirrors fn minimax (score, best move).  The source's if-let on winner() is
rendered as two ifs: winner equal to ai scores one, any other winner scores
minus one.  The fuel argument bounds the recursion depth; every recursive call
of the source fills one empty cell, so any fuel at least countEmpty b.cells
reproduces the source exactly (the fuel zero fallback is then unreachable), as
the fuel-irrelevance theorem shows. -/
def minimax (fuel : Nat) (b : Board) (current ai : Player) : Int × Option Nat :=
  if b.winner = some ai then ((1 : Int), none)
  else if (b.winner).isSome then ((-1 : Int), none)
  else if b.isFull then ((0 : Int), none)
  else
    match fuel with
    | 0 => ((0 : Int), none)
    | fuel' + 1 =>
      let children := b.availableMoves.map
        (fun mv => (mv, (minimax fuel' (b.play mv current) current.other ai).1))
      if current = ai then selectMax children int32Min none
      else selectMin children int32Max none

/-- Mirrors fn find_best_move: the move component of minimax(board, ai, ai). -/
def find_best_move (b : Board) (ai : Player) : Option Nat :=
  (minimax (countEmpty b.cells) b ai ai).2

/-- The children generated by one unfolding of the minimax loop, in the order
of available_moves, paired with their recursive scores. -/
def childScores (fuel : Nat) (b : Board) (current ai : Player) : List (Nat × Int) :=
  b.availableMoves.map
    (fun mv => (mv, (minimax fuel (b.play mv current) current.other ai).1))

/-- Maximum of a nonempty integer list (the empty case is never used). -/
def listMax : List Int → Int
  | [] => 0
  | [x] => x
  | x :: y :: rest => max x (listMax (y :: rest))

/-- Minimum of a nonempty integer list (the empty case is never used). -/
def listMin : List Int → Int
  | [] => 0
  | [x] => x
  | x :: y :: rest => min x (listMin (y :: rest))

/-- First index of the list attaining the maximal score: the spec's
first-wins-on-tie policy for the maximizing player. -/
def firstArgmax (l : List (Nat × Int)) : Option Nat :=
  (l.find? (fun p => p.2 == listMax (l.map Prod.snd))).map Prod.fst

/-- First index of the list attaining the minimal score: the spec's
first-wins-on-tie policy for the minimizing player. -/
def firstArgmin (l : List (Nat × Int)) : Option Nat :=
  (l.find? (fun p => p.2 == listMin (l.map Prod.snd))).map Prod.fst

/-- Game-theoretic value of a position for ai, following the spec's words:
plus one when ai has won, minus one when the opponent has won, zero for a full
drawn board, and otherwise the maximum (when ai moves) or minimum (when the
opponent moves) of the children's values over available_moves.  The fuel
bounds the recursion depth exactly as for minimax. -/
def gameValueF (fuel : Nat) (b : Board) (toMove ai : Player) : Int :=
  if b.winner = some ai then 1
  else if (b.winner).isSome then -1
  else if b.isFull then 0
  else
    match fuel with
    | 0 => 0
    | fuel' + 1 =>
      let scores := b.availableMoves.map
        (fun mv => gameValueF fuel' (b.play mv toMove) toMove.other ai)
      if toMove = ai then listMax scores else listMin scores

/-- Game-theoretic value at the canonical fuel. -/
def gameValue (b : Board) (toMove ai : Player) : Int :=
  gameValueF (countEmpty b.cells) b toMove ai

/-- The board of the concrete scenario: X placed at row zero columns zero and
one, O placed at the center, built through Board::place as in the test. -/
def demoBoard : Board :=
  ((((Board.new).place 0 0 Player.X).2.place 0 1 Player.X).2.place 1 1 Player.O).2

/-! Unfolding lemmas and fuel irrelevance. -/
/-- The children values of one unfolding of the game-value recursion. -/
def childValues (fuel : Nat) (b : Board) (toMove ai : Player) : List Int :=
  b.availableMoves.map (fun mv => gameValueF fuel (b.play mv toMove) toMove.other ai)

/-! The central correctness invariant of minimax. -/
/-- Conjunction of the minimax facts proved by induction: the score equals the
game-theoretic value, the value is between minus one and one, on a
non-terminal board the returned move is an available move preserving the
value, and on a terminal board no move is returned. -/
def MinimaxGood (fuel : Nat) (b : Board) (c a : Player) : Prop :=
  (minimax fuel b c a).1 = gameValue b c a ∧
  (-1 ≤ gameValue b c a ∧ gameValue b c a ≤ 1) ∧
  (b.winner = none → b.isFull = false →
    ∃ mv, (minimax fuel b c a).2 = some mv ∧ mv ∈ b.availableMoves ∧
      gameValue (b.play mv c) c.other a = gameValue b c a) ∧
  ((b.winner ≠ none ∨ b.isFull = true) → (minimax fuel b c a).2 = none)

/-! Place contract, winner characterization, concrete scenario. -/
/-- Contract of Board::place stated from the spec: with an out-of-bounds
coordinate or an occupied target cell the call fails and leaves every cell
unchanged, otherwise it succeeds and mutates exactly the addressed cell. -/
def PlaceContract (b : Board) (row col : Nat) (p : Player) : Prop :=
  if row ≥ 3 ∨ col ≥ 3 ∨ b.cells.getD (row * 3 + col) none ≠ none then
    (b.place row col p).1 = false ∧ (b.place row col p).2 = b
  else
    (b.place row col p).1 = true ∧
    (b.place row col p).2.cells.getD (row * 3 + col) none = some p ∧
    ∀ j, j ≠ row * 3 + col → (b.place row col p).2.cells.getD j none = b.cells.getD j none

/-- A triple of cell indices all holding the given player, in the spec's
words. -/
def ownedTriple (b : Board) (t : Nat × Nat × Nat) (p : Player) : Prop :=
  b.cells.getD t.1 none = some p ∧ b.cells.getD t.2.1 none = some p ∧
    b.cells.getD t.2.2 none = some p

/-- A finished board used as concrete witness input: X owns the top row. -/
def rowWinBoard : Board :=
  ⟨[some Player.X, some Player.X, some Player.X,
    none, none, none, some Player.O, some Player.O, none]⟩

/-! Coordinate parser. -/
/-- Prepends a character to the first part of a split, mirroring how a
non-separator character extends the current part. -/
def consHead (c : Char) : List (List Char) → List (List Char)
  | [] => [[c]]
  | part :: parts => (c :: part) :: parts

/-- Mirrors str::split with separator colon, collected to a list of parts:
n separators produce n plus one parts. -/
def splitColon : List Char → List (List Char)
  | [] => [[]]
  | c :: rest =>
    if c = ':' then [] :: splitColon rest else consHead c (splitColon rest)

/-- Code points of the Unicode White_Space property, the set recognized by
char::is_whitespace: tab, line feed, line tabulation, form feed, carriage
return, space, next line, no-break space, ogham space mark, the en quad
through hair space range, line separator, paragraph separator, narrow
no-break space, medium mathematical space and ideographic space. -/
def rustWhitespaceCodes : List Nat :=
  [9, 10, 11, 12, 13, 32, 133, 160, 5760,
   8192, 8193, 8194, 8195, 8196, 8197, 8198, 8199, 8200, 8201, 8202,
   8232, 8233, 8239, 8287, 12288]

/-- Mirrors char::is_whitespace: true exactly on the Unicode White_Space
code points. -/
def isRustWhitespace (c : Char) : Bool := rustWhitespaceCodes.contains c.toNat

/-- Mirrors str::trim: drops whitespace from both ends.  Whitespace is the
Unicode White_Space property of char::is_whitespace. -/
def trim (s : List Char) : List Char :=
  ((s.dropWhile isRustWhitespace).reverse.dropWhile isRustWhitespace).reverse

/-- Decimal value of a digit list, the accumulation performed by parse. -/
def digitsVal (ds : List Char) : Nat :=
  ds.foldl (fun acc n => acc * 10 + (n.toNat - 48)) 0

/-- Mirrors str::parse for usize (its FromStr instance): an optional leading
plus sign followed by one or more ASCII digits; anything else is rejected.  The
numeric value is unbounded here; oversized inputs are rejected by the range
check of parse_coord either way. -/
def parseUsize (s : List Char) : Option Nat :=
  let t := if s.head? = some '+' then s.tail else s
  if t ≠ [] ∧ t.all Char.isDigit then some (digitsVal t) else none

/-- Mirrors fn parse_coord: reject unless the split has exactly two parts,
parse both trimmed parts (the question-mark operator is the bind), then check
the range. -/
def parse_coord (s : List Char) : Option (Nat × Nat) :=
  let parts := splitColon (trim s)
  if parts.length = 2 then
    (parseUsize (trim (parts.getD 0 []))).bind (fun r =>
      (parseUsize (trim (parts.getD 1 []))).bind (fun c =>
        if r < 3 ∧ c < 3 then some (r, c) else none))
  else none

/-- All characters of the list are whitespace. -/
def isWSlist (w : List Char) : Prop := ∀ c ∈ w, isRustWhitespace c = true

/-- The list of characters spells an integer of value n: an optional plus
sign followed by one or more ASCII digits. -/
def intLiteral (d : List Char) (n : Nat) : Prop :=
  ∃ ds, (d = ds ∨ d = '+' :: ds) ∧ ds ≠ [] ∧ (∀ c ∈ ds, c.isDigit = true) ∧
    digitsVal ds = n

/-- The spec's description of an accepted input: two integers separated by a
single colon, surrounding and interior whitespace tolerated, both values
below three. -/
def specCoord (s : List Char) (r c : Nat) : Prop :=
  ∃ w1 d1 w2 w3 d2 w4,
    s = w1 ++ d1 ++ w2 ++ ':' :: (w3 ++ d2 ++ w4) ∧
    isWSlist w1 ∧ isWSlist w2 ∧ isWSlist w3 ∧ isWSlist w4 ∧
    intLiteral d1 r ∧ intLiteral d2 c ∧ r < 3 ∧ c < 3

/-! Basic list and board lemmas. -/
theorem getD_set_self {α : Type} (l : List α) (i : Nat) (x d : α) (h : i < l.length) :
    (l.set i x).getD i d = x := by
  induction l generalizing i with
  | nil => simp at h
  | cons a t ih =>
    cases i with
    | zero => simp
    | succ j => simpa using ih j (by simpa using h)

theorem getD_set_ne {α : Type} (l : List α) (i j : Nat) (x d : α) (h : j ≠ i) :
    (l.set i x).getD j d = l.getD j d := by
  induction l generalizing i j with
  | nil => simp
  | cons a t ih =>
    cases i with
    | zero =>
      cases j with
      | zero => exact absurd rfl h
      | succ j' => simp
    | succ i' =>
      cases j with
      | zero => simp
      | succ j' => simpa using ih i' j' (fun hc => h (by simpa using hc))

theorem countEmpty_set_some (l : List (Option Player)) (i : Nat) (p : Player)
    (h : i < l.length) (he : l.getD i none = none) :
    countEmpty (l.set i (some p)) + 1 = countEmpty l := by
  induction l generalizing i with
  | nil => simp at h
  | cons a t ih =>
    cases i with
    | zero =>
      have ha : a = none := by simpa using he
      subst ha
      simp [countEmpty, List.filter_cons]
    | succ j =>
      have := ih j (by simpa using h) (by simpa using he)
      cases a <;> simp [countEmpty, List.filter_cons] at this ⊢ <;> omega

theorem mem_availableMoves (b : Board) (mv : Nat) :
    mv ∈ b.availableMoves ↔ mv < b.cells.length ∧ b.cells.getD mv none = none := by
  simp [Board.availableMoves, List.mem_filter, List.mem_range, Option.isNone_iff_eq_none]

theorem countEmpty_eq_zero_iff (b : Board) : countEmpty b.cells = 0 ↔ b.isFull = true := by
  simp only [countEmpty, Board.isFull, List.length_eq_zero, List.filter_eq_nil_iff,
    List.all_eq_true]
  constructor
  · intro h c hc
    have := h c hc
    cases c with
    | none => simp at this
    | some p => simp
  · intro h c hc
    have := h c hc
    cases c with
    | none => simp at this
    | some p => simp

theorem availableMoves_ne_nil (b : Board) (h : b.isFull = false) :
    b.availableMoves ≠ [] := by
  have hc : countEmpty b.cells ≠ 0 := by
    intro h0
    rw [(countEmpty_eq_zero_iff b).mp h0] at h
    exact absurd h (by simp)
  have : ∃ c ∈ b.cells, c.isNone = true := by
    by_contra hno
    push_neg at hno
    apply hc
    simp only [countEmpty, List.length_eq_zero, List.filter_eq_nil_iff]
    intro c hcc
    simpa using hno c hcc
  obtain ⟨c, hcmem, hcn⟩ := this
  obtain ⟨i, hi, hic⟩ := List.mem_iff_getElem.mp hcmem
  have : i ∈ b.availableMoves := by
    rw [mem_availableMoves]
    refine ⟨hi, ?_⟩
    rw [List.getD_eq_getElem b.cells none hi, hic]
    exact Option.isNone_iff_eq_none.mp hcn
  exact List.ne_nil_of_mem this

theorem countEmpty_play (b : Board) (mv : Nat) (p : Player) (h : mv ∈ b.availableMoves) :
    countEmpty (b.play mv p).cells + 1 = countEmpty b.cells := by
  obtain ⟨hlt, hnone⟩ := (mem_availableMoves b mv).mp h
  exact countEmpty_set_some b.cells mv p hlt hnone

theorem play_cells_length (b : Board) (mv : Nat) (p : Player) :
    (b.play mv p).cells.length = b.cells.length := by
  simp [Board.play]

/-! Lemmas on listMax, listMin and the selection folds. -/
theorem listMax_cons (x : Int) (l : List Int) (h : l ≠ []) :
    listMax (x :: l) = max x (listMax l) := by
  cases l with
  | nil => exact absurd rfl h
  | cons y u => rw [listMax]

theorem listMin_cons (x : Int) (l : List Int) (h : l ≠ []) :
    listMin (x :: l) = min x (listMin l) := by
  cases l with
  | nil => exact absurd rfl h
  | cons y u => rw [listMin]

theorem le_listMax (l : List Int) (x : Int) (hx : x ∈ l) : x ≤ listMax l := by
  induction l with
  | nil => simp at hx
  | cons a t ih =>
    cases t with
    | nil =>
      have : x = a := by simpa using hx
      simp [listMax, this]
    | cons b u =>
      rw [listMax]
      rcases List.mem_cons.mp hx with h | h
      · exact h ▸ le_max_left _ _
      · exact le_trans (ih h) (le_max_right _ _)

theorem listMin_le (l : List Int) (x : Int) (hx : x ∈ l) : listMin l ≤ x := by
  induction l with
  | nil => simp at hx
  | cons a t ih =>
    cases t with
    | nil =>
      have : x = a := by simpa using hx
      simp [listMin, this]
    | cons b u =>
      rw [listMin]
      rcases List.mem_cons.mp hx with h | h
      · exact h ▸ min_le_left _ _
      · exact le_trans (min_le_right _ _) (ih h)

theorem listMax_mem (l : List Int) (h : l ≠ []) : listMax l ∈ l := by
  induction l with
  | nil => exact absurd rfl h
  | cons a t ih =>
    cases t with
    | nil => simp [listMax]
    | cons b u =>
      rw [listMax]
      rcases max_choice a (listMax (b :: u)) with hm | hm
      · rw [hm]; exact List.mem_cons_self a _
      · rw [hm]; exact List.mem_cons_of_mem a (ih (by simp))

theorem listMin_mem (l : List Int) (h : l ≠ []) : listMin l ∈ l := by
  induction l with
  | nil => exact absurd rfl h
  | cons a t ih =>
    cases t with
    | nil => simp [listMin]
    | cons b u =>
      rw [listMin]
      rcases min_choice a (listMin (b :: u)) with hm | hm
      · rw [hm]; exact List.mem_cons_self a _
      · rw [hm]; exact List.mem_cons_of_mem a (ih (by simp))

theorem listMax_eq_of (l : List Int) (a : Int) (ha : a ∈ l) (hub : ∀ x ∈ l, x ≤ a) :
    listMax l = a :=
  le_antisymm (hub _ (listMax_mem l (List.ne_nil_of_mem ha))) (le_listMax l a ha)

theorem listMin_eq_of (l : List Int) (a : Int) (ha : a ∈ l) (hlb : ∀ x ∈ l, a ≤ x) :
    listMin l = a :=
  le_antisymm (listMin_le l a ha) (hlb _ (listMin_mem l (List.ne_nil_of_mem ha)))

theorem selectMax_const (l : List (Nat × Int)) (best : Int) (bm : Option Nat)
    (h : ∀ p ∈ l, p.2 ≤ best) : selectMax l best bm = (best, bm) := by
  induction l generalizing best bm with
  | nil => rfl
  | cons q rest ih =>
    obtain ⟨mv, s⟩ := q
    have hs : s ≤ best := h (mv, s) (List.mem_cons_self _ _)
    rw [selectMax, if_neg (by omega)]
    exact ih best bm (fun p hp => h p (List.mem_cons_of_mem _ hp))

theorem selectMin_const (l : List (Nat × Int)) (best : Int) (bm : Option Nat)
    (h : ∀ p ∈ l, best ≤ p.2) : selectMin l best bm = (best, bm) := by
  induction l generalizing best bm with
  | nil => rfl
  | cons q rest ih =>
    obtain ⟨mv, s⟩ := q
    have hs : best ≤ s := h (mv, s) (List.mem_cons_self _ _)
    rw [selectMin, if_neg (by omega)]
    exact ih best bm (fun p hp => h p (List.mem_cons_of_mem _ hp))

theorem selectMax_eq (l : List (Nat × Int)) (best : Int) (bm : Option Nat)
    (h : ∃ p ∈ l, best < p.2) :
    selectMax l best bm =
      (listMax (l.map Prod.snd),
        (l.find? (fun p => p.2 == listMax (l.map Prod.snd))).map Prod.fst) := by
  induction l generalizing best bm with
  | nil => simp at h
  | cons q rest ih =>
    obtain ⟨mv, s⟩ := q
    simp only [List.map_cons]
    by_cases hs : s > best
    · rw [selectMax, if_pos hs]
      by_cases hex : ∃ p ∈ rest, s < p.2
      · obtain ⟨q0, hq0, hq0s⟩ := hex
        have hrne : rest.map Prod.snd ≠ [] := by
          simp only [ne_eq, List.map_eq_nil_iff]
          exact List.ne_nil_of_mem hq0
        have hslt : s < listMax (rest.map Prod.snd) :=
          lt_of_lt_of_le hq0s (le_listMax _ _ (List.mem_map_of_mem Prod.snd hq0))
        have hM : listMax (s :: rest.map Prod.snd) = listMax (rest.map Prod.snd) := by
          rw [listMax_cons s _ hrne]
          exact max_eq_right (le_of_lt hslt)
        have hcond : (s == listMax (rest.map Prod.snd)) = false := by
          simp only [beq_eq_false_iff_ne, ne_eq]
          omega
        rw [ih s (some mv) ⟨q0, hq0, hq0s⟩, hM]
        simp [List.find?_cons, hcond]
      · push_neg at hex
        have hub : ∀ x ∈ s :: rest.map Prod.snd, x ≤ s := by
          intro x hx
          rcases List.mem_cons.mp hx with he | he
          · exact le_of_eq he
          · obtain ⟨p0, hp0, hp0e⟩ := List.mem_map.mp he
            exact hp0e ▸ hex p0 hp0
        have hM : listMax (s :: rest.map Prod.snd) = s :=
          listMax_eq_of _ s (List.mem_cons_self _ _) hub
        rw [selectMax_const rest s (some mv)
          (fun p hp => hub p.2 (List.mem_cons_of_mem _ (List.mem_map_of_mem Prod.snd hp))), hM]
        simp [List.find?_cons]
    · have hsle : s ≤ best := by omega
      rw [selectMax, if_neg hs]
      have hex : ∃ p ∈ rest, best < p.2 := by
        obtain ⟨p0, hp0, hp0b⟩ := h
        rcases List.mem_cons.mp hp0 with he | he
        · exfalso; rw [he] at hp0b; exact hs hp0b
        · exact ⟨p0, he, hp0b⟩
      obtain ⟨q0, hq0, hq0s⟩ := hex
      have hrne : rest.map Prod.snd ≠ [] := by
        simp only [ne_eq, List.map_eq_nil_iff]
        exact List.ne_nil_of_mem hq0
      have hslt : s < listMax (rest.map Prod.snd) :=
        lt_of_le_of_lt hsle (lt_of_lt_of_le hq0s (le_listMax _ _ (List.mem_map_of_mem Prod.snd hq0)))
      have hM : listMax (s :: rest.map Prod.snd) = listMax (rest.map Prod.snd) := by
        rw [listMax_cons s _ hrne]
        exact max_eq_right (le_of_lt hslt)
      have hcond : (s == listMax (rest.map Prod.snd)) = false := by
        simp only [beq_eq_false_iff_ne, ne_eq]
        omega
      rw [ih best bm ⟨q0, hq0, hq0s⟩, hM]
      simp [List.find?_cons, hcond]

theorem selectMin_eq (l : List (Nat × Int)) (best : Int) (bm : Option Nat)
    (h : ∃ p ∈ l, p.2 < best) :
    selectMin l best bm =
      (listMin (l.map Prod.snd),
        (l.find? (fun p => p.2 == listMin (l.map Prod.snd))).map Prod.fst) := by
  induction l generalizing best bm with
  | nil => simp at h
  | cons q rest ih =>
    obtain ⟨mv, s⟩ := q
    simp only [List.map_cons]
    by_cases hs : s < best
    · rw [selectMin, if_pos hs]
      by_cases hex : ∃ p ∈ rest, p.2 < s
      · obtain ⟨q0, hq0, hq0s⟩ := hex
        have hrne : rest.map Prod.snd ≠ [] := by
          simp only [ne_eq, List.map_eq_nil_iff]
          exact List.ne_nil_of_mem hq0
        have hslt : listMin (rest.map Prod.snd) < s :=
          lt_of_le_of_lt (listMin_le _ _ (List.mem_map_of_mem Prod.snd hq0)) hq0s
        have hM : listMin (s :: rest.map Prod.snd) = listMin (rest.map Prod.snd) := by
          rw [listMin_cons s _ hrne]
          exact min_eq_right (le_of_lt hslt)
        have hcond : (s == listMin (rest.map Prod.snd)) = false := by
          simp only [beq_eq_false_iff_ne, ne_eq]
          omega
        rw [ih s (some mv) ⟨q0, hq0, hq0s⟩, hM]
        simp [List.find?_cons, hcond]
      · push_neg at hex
        have hlb : ∀ x ∈ s :: rest.map Prod.snd, s ≤ x := by
          intro x hx
          rcases List.mem_cons.mp hx with he | he
          · exact le_of_eq he.symm
          · obtain ⟨p0, hp0, hp0e⟩ := List.mem_map.mp he
            exact hp0e ▸ hex p0 hp0
        have hM : listMin (s :: rest.map Prod.snd) = s :=
          listMin_eq_of _ s (List.mem_cons_self _ _) hlb
        rw [selectMin_const rest s (some mv)
          (fun p hp => hlb p.2 (List.mem_cons_of_mem _ (List.mem_map_of_mem Prod.snd hp))), hM]
        simp [List.find?_cons]
    · have hsge : best ≤ s := by omega
      rw [selectMin, if_neg hs]
      have hex : ∃ p ∈ rest, p.2 < best := by
        obtain ⟨p0, hp0, hp0b⟩ := h
        rcases List.mem_cons.mp hp0 with he | he
        · exfalso; rw [he] at hp0b; exact hs hp0b
        · exact ⟨p0, he, hp0b⟩
      obtain ⟨q0, hq0, hq0s⟩ := hex
      have hrne : rest.map Prod.snd ≠ [] := by
        simp only [ne_eq, List.map_eq_nil_iff]
        exact List.ne_nil_of_mem hq0
      have hslt : listMin (rest.map Prod.snd) < s :=
        lt_of_le_of_lt (listMin_le _ _ (List.mem_map_of_mem Prod.snd hq0)) (lt_of_lt_of_le hq0s hsge)
      have hM : listMin (s :: rest.map Prod.snd) = listMin (rest.map Prod.snd) := by
        rw [listMin_cons s _ hrne]
        exact min_eq_right (le_of_lt hslt)
      have hcond : (s == listMin (rest.map Prod.snd)) = false := by
        simp only [beq_eq_false_iff_ne, ne_eq]
        omega
      rw [ih best bm ⟨q0, hq0, hq0s⟩, hM]
      simp [List.find?_cons, hcond]

theorem minimax_winner (fuel : Nat) (b : Board) (c a w : Player) (hw : b.winner = some w) :
    minimax fuel b c a = if w = a then ((1 : Int), none) else ((-1 : Int), none) := by
  rw [minimax.eq_def, hw]
  by_cases hwa : w = a <;> simp [hwa]

theorem minimax_full (fuel : Nat) (b : Board) (c a : Player)
    (hw : b.winner = none) (hf : b.isFull = true) :
    minimax fuel b c a = ((0 : Int), none) := by
  rw [minimax.eq_def, hw]
  simp [hf]

theorem minimax_nonterminal (fuel : Nat) (b : Board) (c a : Player)
    (hw : b.winner = none) (hf : b.isFull = false) :
    minimax (fuel + 1) b c a =
      if c = a then selectMax (childScores fuel b c a) int32Min none
      else selectMin (childScores fuel b c a) int32Max none := by
  rw [minimax.eq_def, hw]
  simp [hf, childScores]

theorem gameValueF_winner (fuel : Nat) (b : Board) (c a w : Player) (hw : b.winner = some w) :
    gameValueF fuel b c a = if w = a then 1 else -1 := by
  rw [gameValueF.eq_def, hw]
  by_cases hwa : w = a <;> simp [hwa]

theorem gameValueF_full (fuel : Nat) (b : Board) (c a : Player)
    (hw : b.winner = none) (hf : b.isFull = true) :
    gameValueF fuel b c a = 0 := by
  rw [gameValueF.eq_def, hw]
  simp [hf]

theorem gameValueF_nonterminal (fuel : Nat) (b : Board) (c a : Player)
    (hw : b.winner = none) (hf : b.isFull = false) :
    gameValueF (fuel + 1) b c a =
      if c = a then listMax (childValues fuel b c a) else listMin (childValues fuel b c a) := by
  rw [gameValueF.eq_def, hw]
  simp [hf, childValues]

theorem countEmpty_pos_of_not_full (b : Board) (hf : b.isFull = false) :
    1 ≤ countEmpty b.cells := by
  rcases Nat.eq_zero_or_pos (countEmpty b.cells) with h0 | h1
  · rw [(countEmpty_eq_zero_iff b).mp h0] at hf
    exact absurd hf (by simp)
  · exact h1

theorem countEmpty_play_le (b : Board) (mv : Nat) (p : Player) (fuel : Nat)
    (hmv : mv ∈ b.availableMoves) (h : countEmpty b.cells ≤ fuel + 1) :
    countEmpty (b.play mv p).cells ≤ fuel := by
  have := countEmpty_play b mv p hmv
  omega

theorem gameValueF_congr (f1 : Nat) : ∀ (b : Board) (c a : Player) (f2 : Nat),
    countEmpty b.cells ≤ f1 → countEmpty b.cells ≤ f2 →
    gameValueF f1 b c a = gameValueF f2 b c a := by
  induction f1 with
  | zero =>
    intro b c a f2 h1 h2
    cases hw : b.winner with
    | some w => rw [gameValueF_winner _ b c a w hw, gameValueF_winner _ b c a w hw]
    | none =>
      have h0 : countEmpty b.cells = 0 := Nat.le_zero.mp h1
      have hf : b.isFull = true := (countEmpty_eq_zero_iff b).mp h0
      rw [gameValueF_full _ b c a hw hf, gameValueF_full _ b c a hw hf]
  | succ f ih =>
    intro b c a f2 h1 h2
    cases hw : b.winner with
    | some w => rw [gameValueF_winner _ b c a w hw, gameValueF_winner _ b c a w hw]
    | none =>
      cases hf : b.isFull with
      | true => rw [gameValueF_full _ b c a hw hf, gameValueF_full _ b c a hw hf]
      | false =>
        have hpos : 1 ≤ countEmpty b.cells := countEmpty_pos_of_not_full b hf
        cases f2 with
        | zero => omega
        | succ f2' =>
          rw [gameValueF_nonterminal f b c a hw hf, gameValueF_nonterminal f2' b c a hw hf]
          have hcv : childValues f b c a = childValues f2' b c a := by
            apply List.map_congr_left
            intro mv hmv
            exact ih (b.play mv c) c.other a f2'
              (countEmpty_play_le b mv c f hmv h1)
              (countEmpty_play_le b mv c f2' hmv h2)
          rw [hcv]

theorem minimax_congr (f1 : Nat) : ∀ (b : Board) (c a : Player) (f2 : Nat),
    countEmpty b.cells ≤ f1 → countEmpty b.cells ≤ f2 →
    minimax f1 b c a = minimax f2 b c a := by
  induction f1 with
  | zero =>
    intro b c a f2 h1 h2
    cases hw : b.winner with
    | some w => rw [minimax_winner _ b c a w hw, minimax_winner _ b c a w hw]
    | none =>
      have h0 : countEmpty b.cells = 0 := Nat.le_zero.mp h1
      have hf : b.isFull = true := (countEmpty_eq_zero_iff b).mp h0
      rw [minimax_full _ b c a hw hf, minimax_full _ b c a hw hf]
  | succ f ih =>
    intro b c a f2 h1 h2
    cases hw : b.winner with
    | some w => rw [minimax_winner _ b c a w hw, minimax_winner _ b c a w hw]
    | none =>
      cases hf : b.isFull with
      | true => rw [minimax_full _ b c a hw hf, minimax_full _ b c a hw hf]
      | false =>
        have hpos : 1 ≤ countEmpty b.cells := countEmpty_pos_of_not_full b hf
        cases f2 with
        | zero => omega
        | succ f2' =>
          rw [minimax_nonterminal f b c a hw hf, minimax_nonterminal f2' b c a hw hf]
          have hcv : childScores f b c a = childScores f2' b c a := by
            apply List.map_congr_left
            intro mv hmv
            rw [ih (b.play mv c) c.other a f2'
              (countEmpty_play_le b mv c f hmv h1)
              (countEmpty_play_le b mv c f2' hmv h2)]
          rw [hcv]

theorem minimax_spec_terminal (fuel : Nat) (b : Board) (c a : Player)
    (hterm : b.winner ≠ none ∨ b.isFull = true) : MinimaxGood fuel b c a := by
  cases hw : b.winner with
  | some w =>
    refine ⟨?_, ?_, ?_, ?_⟩
    · rw [minimax_winner fuel b c a w hw, gameValue, gameValueF_winner _ b c a w hw]
      by_cases hwa : w = a <;> simp [hwa]
    · rw [gameValue, gameValueF_winner _ b c a w hw]
      by_cases hwa : w = a <;> simp [hwa]
    · intro hwn
      rw [hw] at hwn
      exact absurd hwn (by simp)
    · intro _
      rw [minimax_winner fuel b c a w hw]
      by_cases hwa : w = a <;> simp [hwa]
  | none =>
    have hf : b.isFull = true := by
      rcases hterm with hterm | hterm
      · exact absurd hw hterm
      · exact hterm
    refine ⟨?_, ?_, ?_, ?_⟩
    · rw [minimax_full fuel b c a hw hf, gameValue, gameValueF_full _ b c a hw hf]
    · rw [gameValue, gameValueF_full _ b c a hw hf]
      norm_num
    · intro _ hff
      rw [hf] at hff
      exact absurd hff (by simp)
    · intro _
      rw [minimax_full fuel b c a hw hf]

theorem minimax_spec (fuel : Nat) : ∀ (b : Board) (c a : Player),
    countEmpty b.cells ≤ fuel → MinimaxGood fuel b c a := by
  induction fuel with
  | zero =>
    intro b c a h
    cases hw : b.winner with
    | some w => exact minimax_spec_terminal 0 b c a (Or.inl (by simp [hw]))
    | none =>
      exact minimax_spec_terminal 0 b c a
        (Or.inr ((countEmpty_eq_zero_iff b).mp (Nat.le_zero.mp h)))
  | succ f ih =>
    intro b c a h
    cases hw : b.winner with
    | some w => exact minimax_spec_terminal (f + 1) b c a (Or.inl (by simp [hw]))
    | none =>
      cases hf : b.isFull with
      | true => exact minimax_spec_terminal (f + 1) b c a (Or.inr hf)
      | false =>
        have hcount : 1 ≤ countEmpty b.cells := countEmpty_pos_of_not_full b hf
        have hmne : b.availableMoves ≠ [] := availableMoves_ne_nil b hf
        have hchild : ∀ mv ∈ b.availableMoves,
            (minimax f (b.play mv c) c.other a).1 = gameValue (b.play mv c) c.other a ∧
            -1 ≤ gameValue (b.play mv c) c.other a ∧
            gameValue (b.play mv c) c.other a ≤ 1 := by
          intro mv hmv
          have hle := countEmpty_play_le b mv c f hmv h
          obtain ⟨h1, ⟨h2a, h2b⟩, _, _⟩ := ih (b.play mv c) c.other a hle
          exact ⟨h1, h2a, h2b⟩
        have hsnd : (childScores f b c a).map Prod.snd =
            b.availableMoves.map (fun mv => gameValue (b.play mv c) c.other a) := by
          rw [childScores, List.map_map]
          apply List.map_congr_left
          intro mv hmv
          simp only [Function.comp_apply]
          exact (hchild mv hmv).1
        have hgv : gameValue b c a =
            if c = a then
              listMax (b.availableMoves.map (fun mv => gameValue (b.play mv c) c.other a))
            else
              listMin (b.availableMoves.map (fun mv => gameValue (b.play mv c) c.other a)) := by
          obtain ⟨k, hk⟩ : ∃ k, countEmpty b.cells = k + 1 :=
            ⟨countEmpty b.cells - 1, by omega⟩
          rw [gameValue, hk, gameValueF_nonterminal k b c a hw hf]
          have hcv : childValues k b c a =
              b.availableMoves.map (fun mv => gameValue (b.play mv c) c.other a) := by
            rw [childValues]
            apply List.map_congr_left
            intro mv hmv
            rw [gameValue]
            have hce := countEmpty_play b mv c hmv
            exact gameValueF_congr k (b.play mv c) c.other a
              (countEmpty (b.play mv c).cells) (by omega) (le_refl _)
          rw [hcv]
        have hscne :
            b.availableMoves.map (fun mv => gameValue (b.play mv c) c.other a) ≠ [] := by
          simp only [ne_eq, List.map_eq_nil_iff]
          exact hmne
        have hchne : childScores f b c a ≠ [] := by
          rw [childScores]
          simp only [ne_eq, List.map_eq_nil_iff]
          exact hmne
        have hallmem : ∀ p ∈ childScores f b c a,
            p.2 = gameValue (b.play p.1 c) c.other a ∧ p.1 ∈ b.availableMoves := by
          intro p hp
          rw [childScores] at hp
          obtain ⟨mv, hmv, he⟩ := List.mem_map.mp hp
          cases he
          exact ⟨(hchild mv hmv).1, hmv⟩
        have hterm4 : (b.winner ≠ none ∨ b.isFull = true) →
            (minimax (f + 1) b c a).2 = none := by
          intro hterm
          rcases hterm with hterm | hterm
          · exact absurd hw hterm
          · rw [hf] at hterm
            exact absurd hterm (by simp)
        by_cases hc : c = a
        · have hmm : minimax (f + 1) b c a = selectMax (childScores f b c a) int32Min none := by
            rw [minimax_nonterminal f b c a hw hf, if_pos hc]
          have hex : ∃ p ∈ childScores f b c a, int32Min < p.2 := by
            obtain ⟨p, hp⟩ := List.exists_mem_of_ne_nil _ hchne
            refine ⟨p, hp, ?_⟩
            have h1 := (hallmem p hp).1
            have h2 := (hchild p.1 (hallmem p hp).2).2.1
            have hsent : (int32Min : Int) < -1 := by norm_num [int32Min]
            omega
          have hsel := selectMax_eq (childScores f b c a) int32Min none hex
          have hfst : (minimax (f + 1) b c a).1 =
              listMax (b.availableMoves.map (fun mv => gameValue (b.play mv c) c.other a)) := by
            rw [hmm, hsel, ← hsnd]
          have hval : gameValue b c a =
              listMax (b.availableMoves.map (fun mv => gameValue (b.play mv c) c.other a)) := by
            rw [hgv, if_pos hc]
          refine ⟨hfst.trans hval.symm, ?_, ?_, hterm4⟩
          · have hmem := listMax_mem _ hscne
            obtain ⟨mv, hmv, hmveq⟩ := List.mem_map.mp hmem
            constructor
            · rw [hval, ← hmveq]
              exact (hchild mv hmv).2.1
            · rw [hval, ← hmveq]
              exact (hchild mv hmv).2.2
          · intro _ _
            have hMmem : listMax ((childScores f b c a).map Prod.snd) ∈
                (childScores f b c a).map Prod.snd := by
              apply listMax_mem
              simp only [ne_eq, List.map_eq_nil_iff]
              exact hchne
            obtain ⟨q, hqmem, hq2⟩ := List.mem_map.mp hMmem
            have hfind : ∃ q0, (childScores f b c a).find?
                (fun p => p.2 == listMax ((childScores f b c a).map Prod.snd)) = some q0 := by
              rw [← Option.isSome_iff_exists, List.find?_isSome]
              exact ⟨q, hqmem, by simp [hq2]⟩
            obtain ⟨q0, hq0⟩ := hfind
            have hq0mem : q0 ∈ childScores f b c a := List.mem_of_find?_eq_some hq0
            have hq0M : q0.2 = listMax ((childScores f b c a).map Prod.snd) := by
              have := List.find?_some hq0
              simpa using this
            refine ⟨q0.1, ?_, (hallmem q0 hq0mem).2, ?_⟩
            · rw [hmm, hsel]
              simp [hq0]
            · calc gameValue (b.play q0.1 c) c.other a = q0.2 := ((hallmem q0 hq0mem).1).symm
                _ = listMax ((childScores f b c a).map Prod.snd) := hq0M
                _ = listMax (b.availableMoves.map (fun mv => gameValue (b.play mv c) c.other a)) := by
                    rw [hsnd]
                _ = gameValue b c a := hval.symm
        · have hmm : minimax (f + 1) b c a = selectMin (childScores f b c a) int32Max none := by
            rw [minimax_nonterminal f b c a hw hf, if_neg hc]
          have hex : ∃ p ∈ childScores f b c a, p.2 < int32Max := by
            obtain ⟨p, hp⟩ := List.exists_mem_of_ne_nil _ hchne
            refine ⟨p, hp, ?_⟩
            have h1 := (hallmem p hp).1
            have h2 := (hchild p.1 (hallmem p hp).2).2.2
            have hsent : (1 : Int) < int32Max := by norm_num [int32Max]
            omega
          have hsel := selectMin_eq (childScores f b c a) int32Max none hex
          have hfst : (minimax (f + 1) b c a).1 =
              listMin (b.availableMoves.map (fun mv => gameValue (b.play mv c) c.other a)) := by
            rw [hmm, hsel, ← hsnd]
          have hval : gameValue b c a =
              listMin (b.availableMoves.map (fun mv => gameValue (b.play mv c) c.other a)) := by
            rw [hgv, if_neg hc]
          refine ⟨hfst.trans hval.symm, ?_, ?_, hterm4⟩
          · have hmem := listMin_mem _ hscne
            obtain ⟨mv, hmv, hmveq⟩ := List.mem_map.mp hmem
            constructor
            · rw [hval, ← hmveq]
              exact (hchild mv hmv).2.1
            · rw [hval, ← hmveq]
              exact (hchild mv hmv).2.2
          · intro _ _
            have hMmem : listMin ((childScores f b c a).map Prod.snd) ∈
                (childScores f b c a).map Prod.snd := by
              apply listMin_mem
              simp only [ne_eq, List.map_eq_nil_iff]
              exact hchne
            obtain ⟨q, hqmem, hq2⟩ := List.mem_map.mp hMmem
            have hfind : ∃ q0, (childScores f b c a).find?
                (fun p => p.2 == listMin ((childScores f b c a).map Prod.snd)) = some q0 := by
              rw [← Option.isSome_iff_exists, List.find?_isSome]
              exact ⟨q, hqmem, by simp [hq2]⟩
            obtain ⟨q0, hq0⟩ := hfind
            have hq0mem : q0 ∈ childScores f b c a := List.mem_of_find?_eq_some hq0
            have hq0M : q0.2 = listMin ((childScores f b c a).map Prod.snd) := by
              have := List.find?_some hq0
              simpa using this
            refine ⟨q0.1, ?_, (hallmem q0 hq0mem).2, ?_⟩
            · rw [hmm, hsel]
              simp [hq0]
            · calc gameValue (b.play q0.1 c) c.other a = q0.2 := ((hallmem q0 hq0mem).1).symm
                _ = listMin ((childScores f b c a).map Prod.snd) := hq0M
                _ = listMin (b.availableMoves.map (fun mv => gameValue (b.play mv c) c.other a)) := by
                    rw [hsnd]
                _ = gameValue b c a := hval.symm

/-! Claim theorems about the solver. -/
/-- Claim C1: whenever find_best_move returns a move, that move preserves the
game-theoretic value of the position for the ai player (it achieves the
minimax value); in particular if the value was at least a draw it is still at
least a draw after the move, against optimal opposition. -/
theorem find_best_move_never_loses (b : Board) (a : Player) (mv : Nat)
    (hmv : find_best_move b a = some mv) :
    gameValue (b.play mv a) a.other a = gameValue b a a ∧
    (0 ≤ gameValue b a a → 0 ≤ gameValue (b.play mv a) a.other a) := by
  obtain ⟨h1, h2, h3, h4⟩ := minimax_spec (countEmpty b.cells) b a a (le_refl _)
  rw [find_best_move] at hmv
  cases hw : b.winner with
  | some w =>
    rw [h4 (Or.inl (by simp [hw]))] at hmv
    exact absurd hmv (by simp)
  | none =>
    cases hfb : b.isFull with
    | true =>
      rw [h4 (Or.inr hfb)] at hmv
      exact absurd hmv (by simp)
    | false =>
      obtain ⟨mv', hmv', hmem, hval⟩ := h3 hw hfb
      have heq : mv' = mv := by
        have := hmv'.symm.trans hmv
        simpa using this
      subst heq
      refine ⟨hval, fun h0 => ?_⟩
      rw [hval]
      exact h0

/-- Witness for C1 at the concrete scenario board. -/
theorem find_best_move_never_loses_witness :
    find_best_move demoBoard Player.X = some 2 ∧
    gameValue (demoBoard.play 2 Player.X) Player.X.other Player.X =
      gameValue demoBoard Player.X Player.X ∧
    (0 ≤ gameValue demoBoard Player.X Player.X →
      0 ≤ gameValue (demoBoard.play 2 Player.X) Player.X.other Player.X) :=
  ⟨by decide, find_best_move_never_loses demoBoard Player.X 2 (by decide)⟩

/-- Claim C3: find_best_move returns nothing exactly when the board is already
terminal, that is a winner exists or the board is full; on a non-terminal
board it returns some move. -/
theorem find_best_move_none_iff_terminal (b : Board) (a : Player) :
    find_best_move b a = none ↔ (b.winner ≠ none ∨ b.isFull = true) := by
  obtain ⟨h1, h2, h3, h4⟩ := minimax_spec (countEmpty b.cells) b a a (le_refl _)
  rw [find_best_move]
  constructor
  · intro hnone
    by_contra hterm
    push_neg at hterm
    obtain ⟨hwn, hfn⟩ := hterm
    have hfn' : b.isFull = false := by
      cases hcase : b.isFull with
      | true => exact absurd hcase hfn
      | false => rfl
    obtain ⟨mv, hmv, _, _⟩ := h3 hwn hfn'
    rw [hmv] at hnone
    exact absurd hnone (by simp)
  · exact h4

/-- Claim C8: a move returned by find_best_move is legal on a nine-cell board:
its index is below nine and the addressed cell is empty. -/
theorem find_best_move_legal (b : Board) (a : Player) (i : Nat)
    (h9 : b.cells.length = 9) (hmv : find_best_move b a = some i) :
    i < 9 ∧ b.cells.getD i none = none := by
  obtain ⟨h1, h2, h3, h4⟩ := minimax_spec (countEmpty b.cells) b a a (le_refl _)
  rw [find_best_move] at hmv
  cases hw : b.winner with
  | some w =>
    rw [h4 (Or.inl (by simp [hw]))] at hmv
    exact absurd hmv (by simp)
  | none =>
    cases hfb : b.isFull with
    | true =>
      rw [h4 (Or.inr hfb)] at hmv
      exact absurd hmv (by simp)
    | false =>
      obtain ⟨mv', hmv', hmem, _⟩ := h3 hw hfb
      have heq : mv' = i := by
        have := hmv'.symm.trans hmv
        simpa using this
      subst heq
      obtain ⟨hlt, hempty⟩ := (mem_availableMoves b mv').mp hmem
      rw [h9] at hlt
      exact ⟨hlt, hempty⟩

/-- Witness for C8 at the concrete scenario board. -/
theorem find_best_move_legal_witness :
    2 < 9 ∧ demoBoard.cells.getD 2 none = none :=
  find_best_move_legal demoBoard Player.X 2 (by decide) (by decide)

/-- Claim C9: the minimax recursion of the source terminates because every
recursive call fills one empty cell: playing an available move decreases the
number of empty cells by exactly one, so the recursion depth is bounded by the
number of empty cells (at most nine on a nine-cell board); in the fuel
embedding, any fuel at least that bound gives the same result as the bound
itself, so the fuel fallback is never taken. -/
theorem minimax_depth_bounded (b : Board) (c a : Player) (mv : Nat) (fuel : Nat) :
    (mv ∈ b.availableMoves → countEmpty (b.play mv c).cells + 1 = countEmpty b.cells) ∧
    (countEmpty b.cells ≤ fuel → minimax fuel b c a = minimax (countEmpty b.cells) b c a) ∧
    (b.cells.length = 9 → countEmpty b.cells ≤ 9) :=
  ⟨countEmpty_play b mv c,
   fun hle => minimax_congr fuel b c a (countEmpty b.cells) hle (le_refl _),
   fun h9 => le_trans (List.length_filter_le _ _) (le_of_eq h9)⟩

/-- Witness for C9 at the concrete scenario board. -/
theorem minimax_depth_bounded_witness :
    countEmpty (demoBoard.play 2 Player.X).cells + 1 = countEmpty demoBoard.cells ∧
    minimax 9 demoBoard Player.X Player.X =
      minimax (countEmpty demoBoard.cells) demoBoard Player.X Player.X ∧
    countEmpty demoBoard.cells ≤ 9 :=
  ⟨(minimax_depth_bounded demoBoard Player.X Player.X 2 9).1 (by decide),
   (minimax_depth_bounded demoBoard Player.X Player.X 2 9).2.1 (by decide),
   (minimax_depth_bounded demoBoard Player.X Player.X 2 9).2.2 (by decide)⟩

/-- Claim C10: with sufficient fuel the minimax score is always minus one,
zero or one; the i32 sentinel values used to initialize best_score are never
returned. -/
theorem minimax_score_range (fuel : Nat) (b : Board) (c a : Player)
    (h : countEmpty b.cells ≤ fuel) :
    ((minimax fuel b c a).1 = -1 ∨ (minimax fuel b c a).1 = 0 ∨
      (minimax fuel b c a).1 = 1) ∧
    (minimax fuel b c a).1 ≠ int32Min ∧ (minimax fuel b c a).1 ≠ int32Max := by
  obtain ⟨h1, ⟨h2a, h2b⟩, _, _⟩ := minimax_spec fuel b c a h
  have hmin : (int32Min : Int) < -1 := by norm_num [int32Min]
  have hmax : (1 : Int) < int32Max := by norm_num [int32Max]
  rw [h1]
  refine ⟨by omega, by omega, by omega⟩

/-- Witness for C10 at the concrete scenario board. -/
theorem minimax_score_range_witness :
    ((minimax 9 demoBoard Player.X Player.X).1 = -1 ∨
      (minimax 9 demoBoard Player.X Player.X).1 = 0 ∨
      (minimax 9 demoBoard Player.X Player.X).1 = 1) ∧
    (minimax 9 demoBoard Player.X Player.X).1 ≠ int32Min ∧
    (minimax 9 demoBoard Player.X Player.X).1 ≠ int32Max :=
  minimax_score_range 9 demoBoard Player.X Player.X (by decide)

/-- Claim C4: the minimax loop generates one child per index of
available_moves, in ascending index order, and both the maximizing and the
minimizing selection keep the first child attaining the optimal score: a
later child replaces the kept one only on a strictly better score for the
current player. -/
theorem minimax_first_wins_on_tie (fuel : Nat) (b : Board) (c a : Player)
    (h : countEmpty b.cells ≤ fuel + 1) (hw : b.winner = none) (hf : b.isFull = false) :
    List.Pairwise (fun i j => i < j) b.availableMoves ∧
    (childScores fuel b c a).map Prod.fst = b.availableMoves ∧
    (minimax (fuel + 1) b c a).2 =
      (if c = a then firstArgmax (childScores fuel b c a)
       else firstArgmin (childScores fuel b c a)) := by
  have hmne : b.availableMoves ≠ [] := availableMoves_ne_nil b hf
  have hchild : ∀ p ∈ childScores fuel b c a, -1 ≤ p.2 ∧ p.2 ≤ 1 := by
    intro p hp
    rw [childScores] at hp
    obtain ⟨mv, hmv, he⟩ := List.mem_map.mp hp
    cases he
    have hle := countEmpty_play_le b mv c fuel hmv h
    obtain ⟨h1, ⟨h2a, h2b⟩, _, _⟩ := minimax_spec fuel (b.play mv c) c.other a hle
    refine ⟨?_, ?_⟩
    · show -1 ≤ (minimax fuel (b.play mv c) c.other a).1
      rw [h1]
      exact h2a
    · show (minimax fuel (b.play mv c) c.other a).1 ≤ 1
      rw [h1]
      exact h2b
  have hchne : childScores fuel b c a ≠ [] := by
    rw [childScores]
    simp only [ne_eq, List.map_eq_nil_iff]
    exact hmne
  refine ⟨?_, ?_, ?_⟩
  · exact (List.pairwise_lt_range b.cells.length).sublist (List.filter_sublist _)
  · rw [childScores, List.map_map]
    exact (List.map_congr_left (fun mv _ => rfl)).trans (List.map_id _)
  · by_cases hc : c = a
    · have hex : ∃ p ∈ childScores fuel b c a, int32Min < p.2 := by
        obtain ⟨p, hp⟩ := List.exists_mem_of_ne_nil _ hchne
        have hb := (hchild p hp).1
        have hsent : (int32Min : Int) < -1 := by norm_num [int32Min]
        exact ⟨p, hp, by omega⟩
      rw [minimax_nonterminal fuel b c a hw hf, if_pos hc, if_pos hc,
        selectMax_eq _ _ _ hex]
      rfl
    · have hex : ∃ p ∈ childScores fuel b c a, p.2 < int32Max := by
        obtain ⟨p, hp⟩ := List.exists_mem_of_ne_nil _ hchne
        have hb := (hchild p hp).2
        have hsent : (1 : Int) < int32Max := by norm_num [int32Max]
        exact ⟨p, hp, by omega⟩
      rw [minimax_nonterminal fuel b c a hw hf, if_neg hc, if_neg hc,
        selectMin_eq _ _ _ hex]
      rfl

/-- Witness for C4 at the concrete scenario board, maximizing side. -/
theorem minimax_first_wins_on_tie_witness :
    List.Pairwise (fun i j => i < j) demoBoard.availableMoves ∧
    (childScores 8 demoBoard Player.X Player.X).map Prod.fst = demoBoard.availableMoves ∧
    (minimax 9 demoBoard Player.X Player.X).2 =
      (if Player.X = Player.X then firstArgmax (childScores 8 demoBoard Player.X Player.X)
       else firstArgmin (childScores 8 demoBoard Player.X Player.X)) :=
  minimax_first_wins_on_tie 8 demoBoard Player.X Player.X (by decide) (by decide) (by decide)

/-- Claim C2: Board::place satisfies its contract on a nine-cell board. -/
theorem place_contract (b : Board) (row col : Nat) (p : Player)
    (h9 : b.cells.length = 9) : PlaceContract b row col p := by
  rw [PlaceContract]
  by_cases hb : row ≥ 3 ∨ col ≥ 3
  · rw [if_pos (Or.elim hb Or.inl (fun h => Or.inr (Or.inl h)))]
    constructor
    · simp [Board.place, hb]
    · simp [Board.place, hb]
  · have hcond : ¬(row ≥ 3 ∨ col ≥ 3) := hb
    push_neg at hb
    obtain ⟨hr, hc⟩ := hb
    by_cases hcell : b.cells.getD (row * 3 + col) none = none
    · have hnot : ¬(row ≥ 3 ∨ col ≥ 3 ∨ b.cells.getD (row * 3 + col) none ≠ none) := by
        push_neg
        exact ⟨by omega, by omega, hcell⟩
      rw [if_neg hnot]
      have hplace : b.place row col p = (true, ⟨b.cells.set (row * 3 + col) (some p)⟩) := by
        rw [Board.place, if_neg hcond]
        simp only [Board.idx]
        rw [if_pos hcell]
      rw [hplace]
      refine ⟨rfl, ?_, ?_⟩
      · exact getD_set_self b.cells (row * 3 + col) (some p) none (by rw [h9]; omega)
      · intro j hj
        exact getD_set_ne b.cells (row * 3 + col) j (some p) none hj
    · rw [if_pos (Or.inr (Or.inr hcell))]
      have hplace : b.place row col p = (false, b) := by
        rw [Board.place, if_neg hcond]
        simp only [Board.idx]
        rw [if_neg hcell]
      rw [hplace]
      exact ⟨rfl, rfl⟩

/-- Witness for C2 on the empty board. -/
theorem place_contract_witness : PlaceContract Board.new 0 0 Player.X :=
  place_contract Board.new 0 0 Player.X (by decide)

theorem head?_mem {α : Type} (l : List α) (c : α) (h : l.head? = some c) : c ∈ l := by
  cases l with
  | nil => simp at h
  | cons a t =>
    simp only [List.head?_cons, Option.some.injEq] at h
    exact h ▸ List.mem_cons_self a t

theorem mem_of_getLast?_eq {α : Type} (l : List α) (c : α) (h : l.getLast? = some c) :
    c ∈ l := by
  rw [← List.head?_reverse] at h
  exact List.mem_reverse.mp (head?_mem l.reverse c h)

theorem lineOwner_some_iff (b : Board) (t : Nat × Nat × Nat) (p : Player) :
    lineOwner b t = some p ↔ ownedTriple b t p := by
  rw [lineOwner, ownedTriple]
  cases h1 : b.cells.getD t.1 none with
  | none => simp
  | some p1 =>
    cases h2 : b.cells.getD t.2.1 none with
    | none => simp
    | some p2 =>
      cases h3 : b.cells.getD t.2.2 none with
      | none => simp
      | some p3 =>
        cases p1 <;> cases p2 <;> cases p3 <;> cases p <;> simp

theorem lineOwner_none_iff (b : Board) (t : Nat × Nat × Nat) :
    lineOwner b t = none ↔ ∀ q, ¬ ownedTriple b t q := by
  constructor
  · intro h q hq
    have := (lineOwner_some_iff b t q).mpr hq
    rw [h] at this
    exact absurd this (by simp)
  · intro h
    cases hcase : lineOwner b t with
    | none => rfl
    | some q => exact absurd ((lineOwner_some_iff b t q).mp hcase) (h q)

theorem firstOwner_some_iff (b : Board) : ∀ (ls : List (Nat × Nat × Nat)) (p : Player),
    firstOwner b ls = some p ↔
      ∃ i, i < ls.length ∧ lineOwner b (ls.getD i (0, 0, 0)) = some p ∧
        ∀ j, j < i → lineOwner b (ls.getD j (0, 0, 0)) = none := by
  intro ls
  induction ls with
  | nil =>
    intro p
    simp [firstOwner]
  | cons t rest ih =>
    intro p
    cases hlo : lineOwner b t with
    | some q =>
      have hfo : firstOwner b (t :: rest) = some q := by
        simp only [firstOwner, hlo]
      rw [hfo]
      constructor
      · intro hqp
        refine ⟨0, by simp, ?_, fun j hj => absurd hj (Nat.not_lt_zero j)⟩
        simp only [List.getD_cons_zero]
        rw [hlo]
        exact hqp
      · rintro ⟨i, hi, hline, hprev⟩
        cases i with
        | zero =>
          simp only [List.getD_cons_zero] at hline
          rw [hlo] at hline
          exact hline
        | succ i' =>
          have h0 := hprev 0 (Nat.succ_pos i')
          simp only [List.getD_cons_zero] at h0
          rw [hlo] at h0
          exact absurd h0 (by simp)
    | none =>
      have hfo : firstOwner b (t :: rest) = firstOwner b rest := by
        simp only [firstOwner, hlo]
      rw [hfo, ih p]
      constructor
      · rintro ⟨i, hi, hline, hprev⟩
        refine ⟨i + 1, by simp only [List.length_cons]; omega, ?_, ?_⟩
        · simpa [List.getD_cons_succ] using hline
        · intro j hj
          cases j with
          | zero => simpa [List.getD_cons_zero] using hlo
          | succ j' =>
            have := hprev j' (by omega)
            simpa [List.getD_cons_succ] using this
      · rintro ⟨i, hi, hline, hprev⟩
        cases i with
        | zero =>
          simp only [List.getD_cons_zero] at hline
          rw [hlo] at hline
          exact absurd hline (by simp)
        | succ i' =>
          refine ⟨i', by simp only [List.length_cons] at hi; omega, ?_, ?_⟩
          · simpa [List.getD_cons_succ] using hline
          · intro j hj
            have := hprev (j + 1) (by omega)
            simpa [List.getD_cons_succ] using this

theorem firstOwner_none_iff (b : Board) : ∀ (ls : List (Nat × Nat × Nat)),
    firstOwner b ls = none ↔ ∀ t ∈ ls, lineOwner b t = none := by
  intro ls
  induction ls with
  | nil => simp [firstOwner]
  | cons t rest ih =>
    cases hlo : lineOwner b t with
    | some q =>
      have hfo : firstOwner b (t :: rest) = some q := by
        simp only [firstOwner, hlo]
      rw [hfo]
      constructor
      · intro h
        exact absurd h (by simp)
      · intro h
        have := h t (List.mem_cons_self _ _)
        rw [hlo] at this
        exact absurd this (by simp)
    | none =>
      have hfo : firstOwner b (t :: rest) = firstOwner b rest := by
        simp only [firstOwner, hlo]
      rw [hfo, ih]
      constructor
      · intro h t' ht'
        rcases List.mem_cons.mp ht' with he | he
        · rw [he]
          exact hlo
        · exact h t' he
      · intro h t' ht'
        exact h t' (List.mem_cons_of_mem _ ht')

/-- Claim C5: winner returns some player exactly when one of the eight fixed
lines is fully owned by that player, the lines being inspected in source order
with the first fully owned line deciding; it returns nothing exactly when no
line is fully owned by one player. -/
theorem winner_first_owned_line (b : Board) :
    (∀ p : Player, b.winner = some p ↔
      ∃ i, i < winningLines.length ∧ ownedTriple b (winningLines.getD i (0, 0, 0)) p ∧
        ∀ j, j < i → ∀ q, ¬ ownedTriple b (winningLines.getD j (0, 0, 0)) q) ∧
    (b.winner = none ↔ ∀ t ∈ winningLines, ∀ q, ¬ ownedTriple b t q) := by
  constructor
  · intro p
    rw [Board.winner, firstOwner_some_iff b winningLines p]
    constructor
    · rintro ⟨i, hi, hline, hprev⟩
      exact ⟨i, hi, (lineOwner_some_iff _ _ _).mp hline,
        fun j hj => (lineOwner_none_iff _ _).mp (hprev j hj)⟩
    · rintro ⟨i, hi, howned, hprev⟩
      exact ⟨i, hi, (lineOwner_some_iff _ _ _).mpr howned,
        fun j hj => (lineOwner_none_iff _ _).mpr (hprev j hj)⟩
  · rw [Board.winner, firstOwner_none_iff b winningLines]
    constructor
    · intro h t ht
      exact (lineOwner_none_iff _ _).mp (h t ht)
    · intro h t ht
      exact (lineOwner_none_iff _ _).mpr (h t ht)

/-- Witness for C5 on a finished board with X owning the top row. -/
theorem winner_first_owned_line_witness :
    (∀ p : Player, rowWinBoard.winner = some p ↔
      ∃ i, i < winningLines.length ∧
        ownedTriple rowWinBoard (winningLines.getD i (0, 0, 0)) p ∧
        ∀ j, j < i → ∀ q, ¬ ownedTriple rowWinBoard (winningLines.getD j (0, 0, 0)) q) ∧
    (rowWinBoard.winner = none ↔
      ∀ t ∈ winningLines, ∀ q, ¬ ownedTriple rowWinBoard t q) :=
  winner_first_owned_line rowWinBoard

/-- Claim C6: on the board with X at cells zero and one and O at the center,
find_best_move returns index two both for X (completing the top row) and for
O (blocking it). -/
theorem find_best_move_scenario :
    find_best_move demoBoard Player.X = some 2 ∧
    find_best_move demoBoard Player.O = some 2 :=
  ⟨by decide, by decide⟩

/-! Character and list facts for the parser. -/
theorem digit_not_ws (c : Char) (h : c.isDigit = true) : isRustWhitespace c = false := by
  cases hw : isRustWhitespace c with
  | false => rfl
  | true =>
    exfalso
    have hd : 48 ≤ c.toNat ∧ c.toNat ≤ 57 := by
      simp [Char.isDigit] at h
      exact h
    have hmem : c.toNat ∈ rustWhitespaceCodes := by
      simpa [isRustWhitespace] using hw
    simp [rustWhitespaceCodes] at hmem
    omega

theorem digit_ne_colon (c : Char) (h : c.isDigit = true) : c ≠ ':' := by
  intro he
  subst he
  simp at h

theorem ws_ne_colon (c : Char) (h : isRustWhitespace c = true) : c ≠ ':' := by
  intro he
  subst he
  exact absurd h (by decide)

theorem isWSlist_append (a b : List Char) (ha : isWSlist a) (hb : isWSlist b) :
    isWSlist (a ++ b) := by
  intro c hc
  rcases List.mem_append.mp hc with h | h
  · exact ha c h
  · exact hb c h

theorem head?_append_left {α : Type} (l1 l2 : List α) (h : l1 ≠ []) :
    (l1 ++ l2).head? = l1.head? := by
  cases l1 with
  | nil => exact absurd rfl h
  | cons a t => rfl

theorem dropWhile_append_all {α : Type} (p : α → Bool) (w t : List α)
    (hw : ∀ c ∈ w, p c = true) : (w ++ t).dropWhile p = t.dropWhile p := by
  induction w with
  | nil => rfl
  | cons c w' ih =>
    have hc : p c = true := hw c (List.mem_cons_self _ _)
    rw [List.cons_append, List.dropWhile_cons, if_pos hc]
    exact ih (fun x hx => hw x (List.mem_cons_of_mem _ hx))

theorem dropWhile_head_neg {α : Type} (p : α → Bool) (l : List α)
    (h : ∀ c, l.head? = some c → p c = false) : l.dropWhile p = l := by
  cases l with
  | nil => rfl
  | cons a t =>
    have ha : p a = false := h a rfl
    rw [List.dropWhile_cons, if_neg (by simp [ha])]

theorem trim_decomp (s : List Char) :
    ∃ w w', s = w ++ trim s ++ w' ∧ isWSlist w ∧ isWSlist w' := by
  refine ⟨s.takeWhile isRustWhitespace,
    ((s.dropWhile isRustWhitespace).reverse.takeWhile isRustWhitespace).reverse,
    ?_, ?_, ?_⟩
  · have h1 : s = s.takeWhile isRustWhitespace ++ s.dropWhile isRustWhitespace :=
      (List.takeWhile_append_dropWhile isRustWhitespace s).symm
    have h2 := List.takeWhile_append_dropWhile isRustWhitespace
      (s.dropWhile isRustWhitespace).reverse
    have h3 := congrArg List.reverse h2
    rw [List.reverse_append, List.reverse_reverse] at h3
    calc s = s.takeWhile isRustWhitespace ++ s.dropWhile isRustWhitespace := h1
      _ = s.takeWhile isRustWhitespace ++
          (((s.dropWhile isRustWhitespace).reverse.dropWhile isRustWhitespace).reverse ++
            ((s.dropWhile isRustWhitespace).reverse.takeWhile isRustWhitespace).reverse) := by
          rw [h3]
      _ = s.takeWhile isRustWhitespace ++ trim s ++
          ((s.dropWhile isRustWhitespace).reverse.takeWhile isRustWhitespace).reverse := by
          rw [trim, List.append_assoc]
  · intro c hc
    exact List.mem_takeWhile_imp hc
  · intro c hc
    exact List.mem_takeWhile_imp (List.mem_reverse.mp hc)

theorem trim_eq_of (w m w' : List Char) (hw : isWSlist w) (hw' : isWSlist w')
    (hm : m ≠ [])
    (hh : ∀ c, m.head? = some c → isRustWhitespace c = false)
    (hl : ∀ c, m.getLast? = some c → isRustWhitespace c = false) :
    trim (w ++ m ++ w') = m := by
  rw [trim]
  have hd1 : (w ++ m ++ w').dropWhile isRustWhitespace =
      (m ++ w').dropWhile isRustWhitespace := by
    rw [List.append_assoc]
    exact dropWhile_append_all _ w _ hw
  have hd2 : (m ++ w').dropWhile isRustWhitespace = m ++ w' := by
    apply dropWhile_head_neg
    intro c hc
    rw [head?_append_left m w' hm] at hc
    exact hh c hc
  have hrevne : m.reverse ≠ [] := by
    simp only [ne_eq, List.reverse_eq_nil_iff]
    exact hm
  have hd3 : (m ++ w').reverse.dropWhile isRustWhitespace = m.reverse := by
    rw [List.reverse_append,
      dropWhile_append_all _ w'.reverse _ (fun c hc => hw' c (List.mem_reverse.mp hc))]
    apply dropWhile_head_neg
    intro c hc
    rw [List.head?_reverse] at hc
    exact hl c hc
  rw [hd1, hd2, hd3, List.reverse_reverse]

theorem splitColon_ne_nil : ∀ l : List Char, splitColon l ≠ [] := by
  intro l
  cases l with
  | nil => simp [splitColon]
  | cons c rest =>
    rw [splitColon]
    by_cases hc : c = ':'
    · rw [if_pos hc]
      simp
    · rw [if_neg hc]
      cases hsp : splitColon rest with
      | nil => simp [consHead]
      | cons p ps => simp [consHead]

theorem splitColon_no_colon : ∀ l : List Char, ':' ∉ l → splitColon l = [l] := by
  intro l
  induction l with
  | nil => intro _; rfl
  | cons c rest ih =>
    intro h
    have hc : ¬(c = ':') := fun he => h (he ▸ List.mem_cons_self _ _)
    rw [splitColon, if_neg hc, ih (fun hm => h (List.mem_cons_of_mem _ hm))]
    rfl

theorem splitColon_append (a b : List Char) (ha : ':' ∉ a) :
    splitColon (a ++ ':' :: b) = a :: splitColon b := by
  induction a with
  | nil =>
    rw [List.nil_append, splitColon, if_pos rfl]
  | cons c a' ih =>
    have hc : ¬(c = ':') := fun he => ha (he ▸ List.mem_cons_self _ _)
    rw [List.cons_append, splitColon, if_neg hc,
      ih (fun hm => ha (List.mem_cons_of_mem _ hm))]
    rfl

theorem splitColon_eq_one : ∀ l p : List Char, splitColon l = [p] → l = p := by
  intro l
  induction l with
  | nil =>
    intro p h
    simp only [splitColon] at h
    injection h with h1 h2
  | cons c rest ih =>
    intro p h
    rw [splitColon] at h
    by_cases hc : c = ':'
    · rw [if_pos hc] at h
      injection h with h1 h2
      exact absurd h2 (splitColon_ne_nil rest)
    · rw [if_neg hc] at h
      cases hsp : splitColon rest with
      | nil => exact absurd hsp (splitColon_ne_nil rest)
      | cons q qs =>
        rw [hsp] at h
        simp only [consHead] at h
        injection h with h1 h2
        subst h2
        rw [← h1, ih q hsp]

theorem splitColon_eq_two : ∀ l p1 p2 : List Char, splitColon l = [p1, p2] →
    l = p1 ++ ':' :: p2 := by
  intro l
  induction l with
  | nil =>
    intro p1 p2 h
    simp only [splitColon] at h
    injection h with h1 h2
    exact absurd h2 (by simp)
  | cons c rest ih =>
    intro p1 p2 h
    rw [splitColon] at h
    by_cases hc : c = ':'
    · rw [if_pos hc] at h
      injection h with h1 h2
      rw [← h1, List.nil_append, hc, splitColon_eq_one rest p2 h2]
    · rw [if_neg hc] at h
      cases hsp : splitColon rest with
      | nil => exact absurd hsp (splitColon_ne_nil rest)
      | cons q qs =>
        rw [hsp] at h
        simp only [consHead] at h
        injection h with h1 h2
        subst h2
        rw [← h1, List.cons_append, ih q p2 hsp]

theorem parseUsize_some_iff (d : List Char) (n : Nat) :
    parseUsize d = some n ↔ intLiteral d n := by
  rw [intLiteral]
  cases d with
  | nil =>
    constructor
    · intro h
      rw [parseUsize] at h
      simp at h
    · rintro ⟨ds, (hd | hd), hne, _, _⟩
      · exact absurd hd.symm hne
      · exact absurd hd (by simp)
  | cons c0 rest =>
    by_cases hc0 : c0 = '+'
    · subst hc0
      have hval : parseUsize ('+' :: rest) =
          if rest ≠ [] ∧ rest.all Char.isDigit then some (digitsVal rest) else none := by
        rw [parseUsize]
        simp
      rw [hval]
      by_cases hrest : rest ≠ [] ∧ rest.all Char.isDigit
      · rw [if_pos hrest]
        constructor
        · intro h
          have hn : digitsVal rest = n := by simpa using h
          exact ⟨rest, Or.inr rfl, hrest.1,
            fun x hx => (List.all_eq_true.mp hrest.2) x hx, hn⟩
        · rintro ⟨ds, (hd | hd), hne, hdig, hv⟩
          · have hplus : '+' ∈ ds := hd ▸ List.mem_cons_self '+' rest
            exact absurd (hdig '+' hplus) (by decide)
          · injection hd with h1 h2
            subst h2
            rw [hv]
      · rw [if_neg hrest]
        constructor
        · intro h
          exact absurd h (by simp)
        · rintro ⟨ds, (hd | hd), hne, hdig, hv⟩
          · have hplus : '+' ∈ ds := hd ▸ List.mem_cons_self '+' rest
            exact absurd (hdig '+' hplus) (by decide)
          · injection hd with h1 h2
            subst h2
            exact absurd ⟨hne, List.all_eq_true.mpr hdig⟩ hrest
    · have hval : parseUsize (c0 :: rest) =
          if (c0 :: rest).all Char.isDigit then some (digitsVal (c0 :: rest))
          else none := by
        rw [parseUsize]
        simp [hc0]
      rw [hval]
      by_cases hdig : (c0 :: rest).all Char.isDigit
      · rw [if_pos hdig]
        constructor
        · intro h
          have hn : digitsVal (c0 :: rest) = n := by simpa using h
          exact ⟨c0 :: rest, Or.inl rfl, by simp,
            fun x hx => (List.all_eq_true.mp hdig) x hx, hn⟩
        · rintro ⟨ds, (hd | hd), hne, hdig', hv⟩
          · rw [hd, hv]
          · injection hd with h1
            exact absurd h1 hc0
      · rw [if_neg hdig]
        constructor
        · intro h
          exact absurd h (by simp)
        · rintro ⟨ds, (hd | hd), hne, hdig', hv⟩
          · rw [hd] at hdig
            exact absurd (List.all_eq_true.mpr hdig') hdig
          · injection hd with h1
            exact absurd h1 hc0

theorem intLiteral_facts (d : List Char) (n : Nat) (h : intLiteral d n) :
    d ≠ [] ∧ (∀ c, d.head? = some c → isRustWhitespace c = false) ∧
    (∀ c, d.getLast? = some c → isRustWhitespace c = false) ∧ ':' ∉ d := by
  obtain ⟨ds, hd, hne, hdig, _⟩ := h
  cases ds with
  | nil => exact absurd rfl hne
  | cons d0 ds' =>
    have hd0 : d0.isDigit = true := hdig d0 (List.mem_cons_self _ _)
    rcases hd with hd | hd
    · subst hd
      refine ⟨by simp, ?_, ?_, ?_⟩
      · intro c hc
        simp only [List.head?_cons, Option.some.injEq] at hc
        exact hc ▸ digit_not_ws d0 hd0
      · intro c hc
        exact digit_not_ws c (hdig c (mem_of_getLast?_eq _ c hc))
      · intro hmem
        exact digit_ne_colon ':' (hdig ':' hmem) rfl
    · subst hd
      refine ⟨by simp, ?_, ?_, ?_⟩
      · intro c hc
        simp only [List.head?_cons, Option.some.injEq] at hc
        exact hc ▸ (by decide : isRustWhitespace '+' = false)
      · intro c hc
        rw [List.getLast?_cons_cons] at hc
        exact digit_not_ws c (hdig c (mem_of_getLast?_eq _ c hc))
      · intro hmem
        rcases List.mem_cons.mp hmem with he | he
        · exact absurd he (by decide)
        · exact digit_ne_colon ':' (hdig ':' he) rfl

theorem isWSlist_not_colon (w : List Char) (hw : isWSlist w) : ':' ∉ w :=
  fun hm => ws_ne_colon ':' (hw ':' hm) rfl

theorem parse_coord_two (s p1 p2 : List Char)
    (hsp : splitColon (trim s) = [p1, p2]) :
    parse_coord s = (parseUsize (trim p1)).bind (fun r =>
      (parseUsize (trim p2)).bind (fun c =>
        if r < 3 ∧ c < 3 then some (r, c) else none)) := by
  rw [parse_coord]
  simp [hsp]

theorem parse_coord_not_two (s : List Char)
    (h : (splitColon (trim s)).length ≠ 2) : parse_coord s = none := by
  rw [parse_coord]
  simp [h]

theorem parse_coord_some_iff (s : List Char) (r c : Nat) :
    parse_coord s = some (r, c) ↔ specCoord s r c := by
  constructor
  · intro h
    cases hsp : splitColon (trim s) with
    | nil =>
      rw [parse_coord_not_two s (by rw [hsp]; simp)] at h
      exact absurd h (by simp)
    | cons p1 tl =>
      cases tl with
      | nil =>
        rw [parse_coord_not_two s (by rw [hsp]; simp)] at h
        exact absurd h (by simp)
      | cons p2 tl2 =>
        cases tl2 with
        | cons p3 tl3 =>
          rw [parse_coord_not_two s (by rw [hsp]; simp)] at h
          exact absurd h (by simp)
        | nil =>
          rw [parse_coord_two s p1 p2 hsp] at h
          cases hr1 : parseUsize (trim p1) with
          | none =>
            rw [hr1] at h
            simp at h
          | some r' =>
            rw [hr1, Option.some_bind] at h
            cases hc1 : parseUsize (trim p2) with
            | none =>
              rw [hc1] at h
              simp at h
            | some c' =>
              rw [hc1, Option.some_bind] at h
              by_cases hrng : r' < 3 ∧ c' < 3
              · rw [if_pos hrng] at h
                have hpair : r' = r ∧ c' = c := by simpa using h
                obtain ⟨hrr, hcc⟩ := hpair
                subst hrr
                subst hcc
                have hl1 : intLiteral (trim p1) r' := (parseUsize_some_iff _ _).mp hr1
                have hl2 : intLiteral (trim p2) c' := (parseUsize_some_iff _ _).mp hc1
                have hts : trim s = p1 ++ ':' :: p2 := splitColon_eq_two _ p1 p2 hsp
                obtain ⟨wA, wB, hsA, hwA, hwB⟩ := trim_decomp s
                obtain ⟨wa, wb, hp1, hwa, hwb⟩ := trim_decomp p1
                obtain ⟨wc, wd, hp2, hwc, hwd⟩ := trim_decomp p2
                set d1 := trim p1 with hd1
                set d2 := trim p2 with hd2
                refine ⟨wA ++ wa, d1, wb, wc, d2, wd ++ wB, ?_,
                  isWSlist_append _ _ hwA hwa, hwb, hwc, isWSlist_append _ _ hwd hwB,
                  hl1, hl2, hrng.1, hrng.2⟩
                rw [hsA, hts, hp1, hp2]
                simp [List.append_assoc]
              · rw [if_neg hrng] at h
                simp at h
  · rintro ⟨w1, d1, w2, w3, d2, w4, hs, hw1, hw2, hw3, hw4, hl1, hl2, hr3, hc3⟩
    obtain ⟨hd1ne, hd1h, hd1l, hd1c⟩ := intLiteral_facts d1 r hl1
    obtain ⟨hd2ne, hd2h, hd2l, hd2c⟩ := intLiteral_facts d2 c hl2
    have hM : w1 ++ (d1 ++ w2 ++ ':' :: (w3 ++ d2)) ++ w4 = s := by
      rw [hs]
      simp [List.append_assoc]
    have hMne : d1 ++ w2 ++ ':' :: (w3 ++ d2) ≠ [] := by
      simp
    have hd1w2ne : d1 ++ w2 ≠ [] := by
      intro hx
      exact hd1ne (List.append_eq_nil.mp hx).1
    have hhead : ∀ cc, (d1 ++ w2 ++ ':' :: (w3 ++ d2)).head? = some cc →
        isRustWhitespace cc = false := by
      intro cc hcc
      rw [head?_append_left (d1 ++ w2) _ hd1w2ne, head?_append_left d1 w2 hd1ne] at hcc
      exact hd1h cc hcc
    have hlast : ∀ cc, (d1 ++ w2 ++ ':' :: (w3 ++ d2)).getLast? = some cc →
        isRustWhitespace cc = false := by
      intro cc hcc
      have hre : d1 ++ w2 ++ ':' :: (w3 ++ d2) = (d1 ++ w2 ++ ':' :: w3) ++ d2 := by
        simp [List.append_assoc]
      rw [hre, List.getLast?_append_of_ne_nil _ hd2ne] at hcc
      exact hd2l cc hcc
    have htrimS : trim s = d1 ++ w2 ++ ':' :: (w3 ++ d2) := by
      rw [← hM]
      exact trim_eq_of w1 _ w4 hw1 hw4 hMne hhead hlast
    have hnc1 : ':' ∉ d1 ++ w2 := by
      intro hmem
      rcases List.mem_append.mp hmem with hm | hm
      · exact hd1c hm
      · exact isWSlist_not_colon w2 hw2 hm
    have hnc2 : ':' ∉ w3 ++ d2 := by
      intro hmem
      rcases List.mem_append.mp hmem with hm | hm
      · exact isWSlist_not_colon w3 hw3 hm
      · exact hd2c hm
    have hsplit : splitColon (trim s) = [d1 ++ w2, w3 ++ d2] := by
      rw [htrimS, splitColon_append (d1 ++ w2) (w3 ++ d2) hnc1,
        splitColon_no_colon _ hnc2]
    have htrim1 : trim (d1 ++ w2) = d1 := by
      have := trim_eq_of [] d1 w2 (by intro x hx; simp at hx) hw2 hd1ne hd1h hd1l
      simpa using this
    have htrim2 : trim (w3 ++ d2) = d2 := by
      have := trim_eq_of w3 d2 [] hw3 (by intro x hx; simp at hx) hd2ne hd2h hd2l
      simpa using this
    have hpu1 : parseUsize d1 = some r := (parseUsize_some_iff d1 r).mpr hl1
    have hpu2 : parseUsize d2 = some c := (parseUsize_some_iff d2 c).mpr hl2
    rw [parse_coord]
    simp [hsplit, htrim1, htrim2, hpu1, hpu2, hr3, hc3]

/-- Claim C7: parse_coord returns some pair exactly when the input is two
integers separated by a single colon with surrounding and interior whitespace
tolerated and both values below three, and it behaves as specified on the
five concrete examples. -/
theorem parse_coord_contract :
    (∀ (s : List Char) (r c : Nat), parse_coord s = some (r, c) ↔ specCoord s r c) ∧
    parse_coord ['1', ':', '2'] = some (1, 2) ∧
    parse_coord [' ', '0', ':', '0', ' ', '\n'] = some (0, 0) ∧
    parse_coord ['3', ':', '0'] = none ∧
    parse_coord ['a', ':', 'b'] = none ∧
    parse_coord ['1'] = none :=
  ⟨parse_coord_some_iff, by decide, by decide, by decide, by decide, by decide⟩

/-- Witness for C7: the characterization applied at a concrete input. -/
theorem parse_coord_contract_witness :
    parse_coord ['1', ':', '2'] = some (1, 2) ↔ specCoord ['1', ':', '2'] 1 2 :=
  parse_coord_contract.1 ['1', ':', '2'] 1 2

/-- Witness for C3 at a finished board and at an ongoing board. -/
theorem find_best_move_none_iff_terminal_witness :
    (find_best_move rowWinBoard Player.X = none ↔
      (rowWinBoard.winner ≠ none ∨ rowWinBoard.isFull = true)) ∧
    (find_best_move demoBoard Player.X = none ↔
      (demoBoard.winner ≠ none ∨ demoBoard.isFull = true)) :=
  ⟨find_best_move_none_iff_terminal rowWinBoard Player.X,
   find_best_move_none_iff_terminal demoBoard Player.X⟩
